import Mathlib

/-!
Verification of the lock-free bounded ring buffer from `queue/ring.go`
(blastbao/go-datastructures).  The Go code is shallowly embedded: the
`uint64` counters become `Nat` with explicit `% 2 ^ 64` wherever the Go
code can overflow, the node slice becomes a `List`, the retry loops become
fuel-indexed recursion (one unit of fuel per loop iteration), and the
wall-clock timeout test of `Poll` becomes an oracle `elapsed : Nat → Bool`
telling, for each loop iteration, whether `time.Since(start) >= timeout`
was observed.  Atomic loads/stores/CAS are ordinary state reads and writes
because all claims treated here concern single-threaded executions.
-/

namespace RingSpec

/-- 2 ^ 64, the modulus of all `uint64` arithmetic in the source. -/
def U : Nat := 2 ^ 64

/-- Go `uint64` subtraction `a - b` (wrap-around). -/
def sub64 (a b : Nat) : Nat := (a + (U - b % U)) % U

/-- One `v |= v >> k` step of `roundUp` in `ring.go`. -/
def spread (k v : Nat) : Nat := v ||| (v >>> k)

/-- `roundUp` from `ring.go`: `v--`, six or-shift steps, `v++`,
all in `uint64` arithmetic. -/
def roundUp (v : Nat) : Nat :=
  (spread 32 (spread 16 (spread 8 (spread 4 (spread 2 (spread 1
    ((v + (U - 1)) % U)))))) + 1) % U

/-- A slot of the ring: `node` in `ring.go` (`position`, `data`).
`data` is `none` for Go's nil `interface{}`. -/
structure Node (α : Type) where
  position : Nat
  data : Option α
deriving DecidableEq

/-- `RingBuffer` from `ring.go` (padding fields carry no state and are
omitted). -/
structure RingBuffer (α : Type) where
  tail : Nat
  head : Nat
  mask : Nat
  disposed : Nat
  nodes : List (Node α)
deriving DecidableEq

/-- The slot array built by `RingBuffer.init`: slot `i` has `position = i`
and empty data. -/
def initNodes (α : Type) (size : Nat) : List (Node α) :=
  (List.range size).map (fun i => { position := i, data := none })

/-- `NewRingBuffer` followed by `init`: round the size up, allocate the
slots, set `mask = size - 1` (uint64 arithmetic, so size 0 gives
`mask = 2 ^ 64 - 1`). -/
def newRingBuffer (α : Type) (size : Nat) : RingBuffer α :=
  { tail := 0, head := 0,
    mask := (roundUp size + (U - 1)) % U,
    disposed := 0,
    nodes := initNodes α (roundUp size) }

/-- Result of `RingBuffer.put`: `ok` is `(true, nil)`, `notAccepted` is
`(false, nil)`, `disposedErr` is `(false, ErrDisposed)`, `panicked` is the
`panic` call, `idxOOR` is the Go runtime index-out-of-range fault, and
`outOfFuel` means the loop was still spinning when the fuel ran out
(the call blocks). -/
inductive PutRes where
  | ok
  | notAccepted
  | disposedErr
  | panicked
  | idxOOR
  | outOfFuel
deriving DecidableEq

/-- The retry loop of `RingBuffer.put` in `ring.go`, one fuel per
iteration.  `tail` is the local copy of the tail counter; the CAS is
modelled by comparing the shared `rb.tail` with the local value. -/
def putLoop {α : Type} (item : α) (offer : Bool) :
    RingBuffer α → Nat → Nat → PutRes × RingBuffer α
  | rb, _, 0 => (.outOfFuel, rb)
  | rb, tail, fuel + 1 =>
    if rb.disposed = 1 then (.disposedErr, rb)
    else
      match rb.nodes[tail &&& rb.mask]? with
      | none => (.idxOOR, rb)
      | some n =>
        let diff := sub64 n.position tail
        if diff = 0 then
          if rb.tail = tail then
            (.ok, { rb with
                    tail := (tail + 1) % U,
                    nodes := rb.nodes.set (tail &&& rb.mask)
                      { position := (tail + 1) % U, data := some item } })
          else if offer then (.notAccepted, rb)
          else putLoop item offer rb tail fuel
        else if diff < 0 then (.panicked, rb)
        else if offer then (.notAccepted, rb)
        else putLoop item offer rb rb.tail fuel

/-- `rb.put(item, offer)`: start the loop from the loaded tail. -/
def RingBuffer.put {α : Type} (rb : RingBuffer α) (item : α) (offer : Bool)
    (fuel : Nat) : PutRes × RingBuffer α :=
  putLoop item offer rb rb.tail fuel

/-- `Put` = `put(item, false)`. -/
def RingBuffer.Put {α : Type} (rb : RingBuffer α) (item : α) (fuel : Nat) :
    PutRes × RingBuffer α :=
  rb.put item false fuel

/-- `Offer` = `put(item, true)`. -/
def RingBuffer.Offer {α : Type} (rb : RingBuffer α) (item : α) (fuel : Nat) :
    PutRes × RingBuffer α :=
  rb.put item true fuel

/-- Result of `RingBuffer.Poll` / `Get`: `ok v` is `(v, nil)` where `v` is
the data read from the slot, `timeoutErr` is `(nil, ErrTimeout)`, the rest
as for `PutRes`. -/
inductive PollRes (α : Type) where
  | ok (val : Option α)
  | disposedErr
  | timeoutErr
  | panicked
  | idxOOR
  | outOfFuel
deriving DecidableEq

/-- The retry loop of `RingBuffer.Poll` in `ring.go`.  `pos` is the local
head copy; `iter` counts iterations and indexes the `elapsed` oracle,
which reports whether `time.Since(start) >= timeout` held when the
timeout test of that iteration ran. -/
def pollLoop {α : Type} (timeout : Int) (elapsed : Nat → Bool) :
    RingBuffer α → Nat → Nat → Nat → PollRes α × RingBuffer α
  | rb, _, _, 0 => (.outOfFuel, rb)
  | rb, pos, iter, fuel + 1 =>
    if rb.disposed = 1 then (.disposedErr, rb)
    else
      match rb.nodes[pos &&& rb.mask]? with
      | none => (.idxOOR, rb)
      | some n =>
        let dif := sub64 n.position (pos + 1)
        if dif = 0 then
          if rb.head = pos then
            (.ok n.data, { rb with
                           head := (pos + 1) % U,
                           nodes := rb.nodes.set (pos &&& rb.mask)
                             { position := (pos + rb.mask + 1) % U,
                               data := none } })
          else if 0 < timeout ∧ elapsed iter = true then (.timeoutErr, rb)
          else pollLoop timeout elapsed rb pos (iter + 1) fuel
        else if dif < 0 then (.panicked, rb)
        else if 0 < timeout ∧ elapsed iter = true then (.timeoutErr, rb)
        else pollLoop timeout elapsed rb rb.head (iter + 1) fuel

/-- `rb.Poll(timeout)`: start the loop from the loaded head. -/
def RingBuffer.Poll {α : Type} (rb : RingBuffer α) (timeout : Int)
    (elapsed : Nat → Bool) (fuel : Nat) : PollRes α × RingBuffer α :=
  pollLoop timeout elapsed rb rb.head 0 fuel

/-- `rb.Get()` = `rb.Poll(0)` (the oracle is never consulted at
timeout 0). -/
def RingBuffer.Get {α : Type} (rb : RingBuffer α) (fuel : Nat) :
    PollRes α × RingBuffer α :=
  rb.Poll 0 (fun _ => false) fuel

/-- `Len` from `ring.go`: `tail - head` in `uint64` arithmetic. -/
def RingBuffer.Len {α : Type} (rb : RingBuffer α) : Nat :=
  sub64 rb.tail rb.head

/-- `Cap` from `ring.go`: the length of the node slice. -/
def RingBuffer.Cap {α : Type} (rb : RingBuffer α) : Nat :=
  rb.nodes.length

/-- `Dispose` from `ring.go`: `CAS(&disposed, 0, 1)`. -/
def RingBuffer.Dispose {α : Type} (rb : RingBuffer α) : RingBuffer α :=
  if rb.disposed = 0 then { rb with disposed := 1 } else rb

/-- `IsDisposed` from `ring.go`. -/
def RingBuffer.IsDisposed {α : Type} (rb : RingBuffer α) : Bool :=
  rb.disposed = 1

/-- A sequence of `Put` calls, one unit of fuel each (a successful
uncontended put finishes in one iteration); results are listed in call
order. -/
def putSeq {α : Type} : RingBuffer α → List α → List PutRes × RingBuffer α
  | rb, [] => ([], rb)
  | rb, v :: vs =>
    let r := rb.put v false 1
    let rest := putSeq r.2 vs
    (r.1 :: rest.1, rest.2)

/-- A sequence of `n` `Get` calls, one unit of fuel each. -/
def getSeq {α : Type} : RingBuffer α → Nat → List (PollRes α) × RingBuffer α
  | rb, 0 => ([], rb)
  | rb, n + 1 =>
    let r := rb.Get 1
    let rest := getSeq r.2 n
    (r.1 :: rest.1, rest.2)

/-- One public operation of the buffer, viewed as a state transition:
any `put`/`Offer` call, any `Poll`/`Get` call (any timeout, oracle and
fuel), or `Dispose`. -/
inductive Step {α : Type} : RingBuffer α → RingBuffer α → Prop where
  | put (rb : RingBuffer α) (item : α) (offer : Bool) (fuel : Nat) :
      Step rb (rb.put item offer fuel).2
  | poll (rb : RingBuffer α) (timeout : Int) (elapsed : Nat → Bool)
      (fuel : Nat) : Step rb (rb.Poll timeout elapsed fuel).2
  | dispose (rb : RingBuffer α) : Step rb rb.Dispose

/-- States reachable from a given state by single-threaded operations. -/
def ReachableFrom {α : Type} : RingBuffer α → RingBuffer α → Prop :=
  Relation.ReflTransGen Step

/-- States reachable from a freshly constructed buffer of the given
requested size. -/
def Reachable {α : Type} (size : Nat) (rb : RingBuffer α) : Prop :=
  ReachableFrom (newRingBuffer α size) rb

/-- Single-threaded state invariant of the buffer, with ghost unwrapped
counters `T` (number of successful puts) and `H` (number of successful
gets) and the ghost history `vals` of put values.  Slot `j % c` stores
the published value for counter `j` when `H ≤ j < T`, and is free for
counter `j` when `T ≤ j < H + c`. -/
structure Inv {α : Type} (rb : RingBuffer α) (T H : Nat)
    (vals : Nat → Option α) : Prop where
  cap_pos : 1 ≤ rb.nodes.length
  cap_dvd : rb.nodes.length ∣ U
  cap_le : rb.nodes.length ≤ 2 ^ 63
  mask_eq : rb.mask = rb.nodes.length - 1
  disp : rb.disposed = 0 ∨ rb.disposed = 1
  tail_eq : rb.tail = T % U
  head_eq : rb.head = H % U
  hHT : H ≤ T
  hTH : T - H ≤ rb.nodes.length
  pub : ∀ j, H ≤ j → j < T →
    rb.nodes[j % rb.nodes.length]? =
      some { position := (j + 1) % U, data := vals j }
  free : ∀ j, T ≤ j → j < H + rb.nodes.length →
    rb.nodes[j % rb.nodes.length]? =
      some { position := j % U, data := none }

/-- `c` is the smallest power of two that is at least `s`. -/
def isSmallestPow2Geq (c s : Nat) : Prop :=
  (∃ k, c = 2 ^ k) ∧ s ≤ c ∧ ∀ d, (∃ k, d = 2 ^ k) → s ≤ d → c ≤ d

/-- A corrupted buffer state for the C2 analysis: capacity 1, but the
slot sequence (0) is behind the local tail and head values (5), the
condition the spec calls a fatal invariant violation. -/
def corrupted : RingBuffer Nat :=
  { tail := 5, head := 5, mask := 0, disposed := 0,
    nodes := [{ position := 0, data := none }] }


theorem U_lit : U = 18446744073709551616 := by norm_num [U]

theorem U_pos : 0 < U := by norm_num [U]

theorem spread_window {m w c : Nat}
    (h : ∀ i, w.testBit i = true ↔ ∃ j, j < c ∧ m.testBit (i + j) = true) :
    ∀ i, (spread c w).testBit i = true ↔
      ∃ j, j < c + c ∧ m.testBit (i + j) = true := by
  intro i
  unfold spread
  rw [Nat.testBit_lor, Bool.or_eq_true, Nat.testBit_shiftRight, h, h]
  constructor
  · rintro (⟨j, hj, hb⟩ | ⟨j, hj, hb⟩)
    · exact ⟨j, by omega, hb⟩
    · refine ⟨c + j, by omega, ?_⟩
      have e : i + (c + j) = c + i + j := by omega
      rw [e]; exact hb
  · rintro ⟨j, hj, hb⟩
    by_cases hjc : j < c
    · exact Or.inl ⟨j, hjc, hb⟩
    · refine Or.inr ⟨j - c, by omega, ?_⟩
      have e : c + i + (j - c) = i + j := by omega
      rw [e]; exact hb

theorem cascade_window (m : Nat) :
    ∀ i, (spread 32 (spread 16 (spread 8 (spread 4 (spread 2
      (spread 1 m)))))).testBit i = true ↔
      ∃ j, j < 64 ∧ m.testBit (i + j) = true := by
  have h0 : ∀ i, m.testBit i = true ↔ ∃ j, j < 1 ∧ m.testBit (i + j) = true := by
    intro i
    constructor
    · intro hb; exact ⟨0, by omega, by simpa using hb⟩
    · rintro ⟨j, hj, hb⟩
      have : j = 0 := by omega
      subst this; simpa using hb
  exact spread_window (spread_window (spread_window (spread_window
    (spread_window (spread_window h0)))))

theorem lt_size_of_testBit {m k : Nat} (h : m.testBit k = true) : k < m.size := by
  rw [Nat.testBit_to_div_mod] at h
  have h1 : 1 ≤ m / 2 ^ k := by
    rcases Nat.eq_zero_or_pos (m / 2 ^ k) with h0 | h0
    · rw [h0] at h; simp at h
    · exact h0
  have h2 : 2 ^ k ≤ m := (Nat.one_le_div_iff (Nat.pos_pow_of_pos k (by norm_num))).mp h1
  exact Nat.lt_size.mpr h2

theorem testBit_msb {m : Nat} (hm : m ≠ 0) : m.testBit (m.size - 1) = true := by
  have hs : 1 ≤ m.size := by
    rcases Nat.eq_zero_or_pos m.size with h0 | h0
    · exact absurd (Nat.size_eq_zero.mp h0) hm
    · exact h0
  have h1 : 2 ^ (m.size - 1) ≤ m := Nat.lt_size.mp (by omega)
  have h2 : m < 2 ^ m.size := Nat.lt_size_self m
  have hpow := Nat.pow_succ 2 (m.size - 1)
  have e : m.size - 1 + 1 = m.size := by omega
  rw [Nat.succ_eq_add_one, e] at hpow
  have hdiv : m / 2 ^ (m.size - 1) = 1 := by
    have hlo : 1 ≤ m / 2 ^ (m.size - 1) :=
      (Nat.one_le_div_iff (Nat.pos_pow_of_pos _ (by norm_num))).mpr h1
    have hhi : m / 2 ^ (m.size - 1) < 2 :=
      (Nat.div_lt_iff_lt_mul (Nat.pos_pow_of_pos _ (by norm_num))).mpr
        (by omega)
    omega
  rw [Nat.testBit_to_div_mod, hdiv]
  decide

theorem cascade_eq (m : Nat) (hm : m < U) :
    spread 32 (spread 16 (spread 8 (spread 4 (spread 2 (spread 1 m))))) =
      2 ^ m.size - 1 := by
  have hs64 : m.size ≤ 64 := Nat.size_le.mpr hm
  apply Nat.eq_of_testBit_eq
  intro i
  rw [Nat.testBit_two_pow_sub_one]
  by_cases hlt : i < m.size
  · have hm0 : m ≠ 0 := by
      intro h0; rw [h0] at hlt; simp [Nat.size_eq_zero] at hlt
    have hw : ∃ j, j < 64 ∧ m.testBit (i + j) = true := by
      refine ⟨m.size - 1 - i, by omega, ?_⟩
      have e : i + (m.size - 1 - i) = m.size - 1 := by omega
      rw [e]; exact testBit_msb hm0
    rw [decide_eq_true hlt]
    exact (cascade_window m i).mpr hw
  · have hw : ¬ ((spread 32 (spread 16 (spread 8 (spread 4 (spread 2
        (spread 1 m)))))).testBit i = true) := by
      intro h
      rcases (cascade_window m i).mp h with ⟨j, _, hb⟩
      have := lt_size_of_testBit hb
      omega
    rw [decide_eq_false hlt]
    exact Bool.eq_false_iff.mpr hw

theorem roundUp_eq_pow (v : Nat) (h1 : 1 ≤ v) (h63 : v ≤ 2 ^ 63) :
    roundUp v = 2 ^ (v - 1).size := by
  have hp63 : (2 : Nat) ^ 63 = 9223372036854775808 := by norm_num
  rw [hp63] at h63
  have hv : (v + (U - 1)) % U = v - 1 := by rw [U_lit]; omega
  have hm : v - 1 < U := by rw [U_lit]; omega
  unfold roundUp
  rw [hv, cascade_eq (v - 1) hm]
  have hsz : (v - 1).size ≤ 63 := Nat.size_le.mpr (by rw [hp63]; omega)
  have hpos : 0 < 2 ^ (v - 1).size := Nat.pos_pow_of_pos _ (by norm_num)
  have hle : 2 ^ (v - 1).size ≤ 2 ^ 63 := Nat.pow_le_pow_right (by norm_num) hsz
  rw [hp63] at hle
  have he : 2 ^ (v - 1).size - 1 + 1 = 2 ^ (v - 1).size := by omega
  rw [he]
  apply Nat.mod_eq_of_lt
  rw [U_lit]
  omega

theorem roundUp_smallest (v : Nat) (h1 : 1 ≤ v) (h63 : v ≤ 2 ^ 63) :
    isSmallestPow2Geq (roundUp v) v := by
  rw [roundUp_eq_pow v h1 h63]
  refine ⟨⟨(v - 1).size, rfl⟩, ?_, ?_⟩
  · have := Nat.lt_size_self (v - 1)
    omega
  · rintro d ⟨k, rfl⟩ hvd
    exact Nat.pow_le_pow_right (by norm_num) (Nat.size_le.mpr (by omega))

theorem roundUp_cases (v : Nat) :
    roundUp v = 0 ∨ ∃ k, k ≤ 63 ∧ roundUp v = 2 ^ k := by
  have hm : (v + (U - 1)) % U < U := Nat.mod_lt _ U_pos
  have hs64 : ((v + (U - 1)) % U).size ≤ 64 := Nat.size_le.mpr hm
  unfold roundUp
  rw [cascade_eq _ hm]
  have hpos : 0 < 2 ^ ((v + (U - 1)) % U).size := Nat.pos_pow_of_pos _ (by norm_num)
  have he : 2 ^ ((v + (U - 1)) % U).size - 1 + 1 =
      2 ^ ((v + (U - 1)) % U).size := by omega
  rw [he]
  rcases Nat.lt_or_ge (((v + (U - 1)) % U).size) 64 with hlt | hge
  · right
    refine ⟨((v + (U - 1)) % U).size, by omega, ?_⟩
    apply Nat.mod_eq_of_lt
    have h2 : 2 ^ ((v + (U - 1)) % U).size < U := by
      rw [show U = 2 ^ 64 from rfl]
      exact Nat.pow_lt_pow_right (by norm_num) hlt
    exact h2
  · left
    have hsz : ((v + (U - 1)) % U).size = 64 := by omega
    rw [hsz, show (2 : Nat) ^ 64 = U from rfl]
    exact Nat.mod_self U

theorem sub64_eq_zero_iff (a b : Nat) : sub64 a b = 0 ↔ a % U = b % U := by
  unfold sub64
  rw [U_lit]
  omega

theorem and_two_pow_sub_one (x k : Nat) : x &&& (2 ^ k - 1) = x % 2 ^ k := by
  apply Nat.eq_of_testBit_eq
  intro i
  rw [Nat.testBit_and, Nat.testBit_two_pow_sub_one, Nat.testBit_mod_two_pow]
  exact Bool.and_comm _ _

theorem mod_inj_interval {L c a b : Nat} (_hc : 0 < c) (ha1 : L ≤ a)
    (ha2 : a < L + c) (hb1 : L ≤ b) (hb2 : b < L + c)
    (h : a % c = b % c) : a = b := by
  rcases Nat.le_total a b with hab | hab
  · have hd : c ∣ b - a := (Nat.modEq_iff_dvd' hab).mp h
    have := Nat.eq_zero_of_dvd_of_lt hd
    omega
  · have hd : c ∣ a - b := (Nat.modEq_iff_dvd' hab).mp h.symm
    have := Nat.eq_zero_of_dvd_of_lt hd
    omega

theorem initNodes_length (α : Type) (s : Nat) : (initNodes α s).length = s := by
  simp [initNodes]

theorem initNodes_get (α : Type) (s j : Nat) (hj : j < s) :
    (initNodes α s)[j]? = some { position := j, data := none } := by
  simp [initNodes, List.getElem?_map, List.getElem?_range hj]

theorem mask_sub_one (c : Nat) (h1 : 1 ≤ c) (h2 : c ≤ U) :
    (c + (U - 1)) % U = c - 1 := by
  rw [U_lit] at *
  omega

theorem inv_fresh (α : Type) (size k : Nat) (hk : k ≤ 63)
    (hc : roundUp size = 2 ^ k) :
    Inv (newRingBuffer α size) 0 0 (fun _ => none) := by
  have hp : (1 : Nat) ≤ 2 ^ k := Nat.pos_pow_of_pos _ (by norm_num)
  have hle63 : (2 : Nat) ^ k ≤ 2 ^ 63 := Nat.pow_le_pow_right (by norm_num) hk
  have hleU : (2 : Nat) ^ k ≤ U := by
    rw [show U = 2 ^ 64 from rfl]
    exact Nat.pow_le_pow_right (by norm_num) (by omega)
  have hlen : (newRingBuffer α size).nodes.length = 2 ^ k := by
    simp [newRingBuffer, initNodes_length, hc]
  refine ⟨?_, ?_, ?_, ?_, ?_, ?_, ?_, ?_, ?_, ?_, ?_⟩
  · rw [hlen]; exact hp
  · rw [hlen, show U = 2 ^ 64 from rfl]
    exact pow_dvd_pow 2 (by omega)
  · rw [hlen]; exact hle63
  · show (roundUp size + (U - 1)) % U = _
    rw [hlen, hc]
    exact mask_sub_one _ hp hleU
  · exact Or.inl rfl
  · exact (Nat.zero_mod U).symm
  · exact (Nat.zero_mod U).symm
  · exact Nat.le_refl 0
  · simp
  · intro j h0 h0'
    omega
  · intro j _ hj
    rw [hlen] at hj
    have hjk : j < 2 ^ k := by omega
    have hidx : j % (newRingBuffer α size).nodes.length = j := by
      rw [hlen]; exact Nat.mod_eq_of_lt hjk
    rw [hidx]
    show (initNodes α (roundUp size))[j]? = _
    rw [hc, initNodes_get α _ j hjk, Nat.mod_eq_of_lt (by omega)]


theorem put_step {α : Type} {rb : RingBuffer α} {T H : Nat}
    {vals : Nat → Option α} (h : Inv rb T H vals) (hd : rb.disposed = 0)
    (hnf : T - H < rb.nodes.length) (item : α) (off : Bool) (fuel : Nat) :
    putLoop item off rb rb.tail (fuel + 1) =
      (PutRes.ok, { rb with
        tail := (T + 1) % U,
        nodes := rb.nodes.set (T % rb.nodes.length)
          { position := (T + 1) % U, data := some item } }) ∧
    Inv { rb with
        tail := (T + 1) % U,
        nodes := rb.nodes.set (T % rb.nodes.length)
          { position := (T + 1) % U, data := some item } }
      (T + 1) H (fun j => if j = T then some item else vals j) := by
  have hcpos : 0 < rb.nodes.length := h.cap_pos
  have hHT := h.hHT
  have hTHc := h.hTH
  have hTltHc : T < H + rb.nodes.length := by omega
  have hidx : rb.tail &&& rb.mask = T % rb.nodes.length := by
    obtain ⟨k, hk64, hck⟩ := (Nat.dvd_prime_pow Nat.prime_two).mp h.cap_dvd
    rw [h.tail_eq, h.mask_eq, hck, and_two_pow_sub_one,
        Nat.mod_mod_of_dvd T (hck ▸ h.cap_dvd), ← hck]
  have hslot := h.free T (Nat.le_refl T) hTltHc
  have hdiff : sub64 (T % U) rb.tail = 0 := by
    rw [h.tail_eq]
    exact (sub64_eq_zero_iff _ _).mpr rfl
  constructor
  · simp only [putLoop, hd, hidx, hslot, hdiff]
    simp [h.tail_eq, Nat.mod_add_mod]
  · refine ⟨?_, ?_, ?_, ?_, ?_, ?_, ?_, ?_, ?_, ?_, ?_⟩
    · simpa using h.cap_pos
    · simpa using h.cap_dvd
    · simpa using h.cap_le
    · simpa using h.mask_eq
    · exact h.disp
    · rfl
    · exact h.head_eq
    · omega
    · simp only [List.length_set]
      omega
    · intro j hj1 hj2
      simp only [List.length_set]
      by_cases hjT : j = T
      · subst hjT
        rw [List.getElem?_set]
        simp [Nat.mod_lt _ hcpos]
      · have hj2' : j < T := by omega
        have hne : T % rb.nodes.length ≠ j % rb.nodes.length := by
          intro he
          exact hjT (mod_inj_interval hcpos (by omega : H ≤ j)
            (by omega) (by omega : H ≤ T) (by omega) he.symm)
        rw [List.getElem?_set_ne hne, h.pub j hj1 hj2']
        simp [hjT]
    · intro j hj1 hj2
      simp only [List.length_set] at hj2 ⊢
      have hjT : j ≠ T := by omega
      have hne : T % rb.nodes.length ≠ j % rb.nodes.length := by
        intro he
        exact hjT (mod_inj_interval hcpos (by omega : H ≤ j)
          (by omega) (by omega : H ≤ T) (by omega) he.symm)
      rw [List.getElem?_set_ne hne]
      exact h.free j (by omega) (by omega)

theorem poll_step {α : Type} {rb : RingBuffer α} {T H : Nat}
    {vals : Nat → Option α} (h : Inv rb T H vals) (hd : rb.disposed = 0)
    (hne : H < T) (timeout : Int) (elapsed : Nat → Bool) (iter fuel : Nat) :
    pollLoop timeout elapsed rb rb.head iter (fuel + 1) =
      (PollRes.ok (vals H), { rb with
        head := (H + 1) % U,
        nodes := rb.nodes.set (H % rb.nodes.length)
          { position := (H + rb.nodes.length) % U, data := none } }) ∧
    Inv { rb with
        head := (H + 1) % U,
        nodes := rb.nodes.set (H % rb.nodes.length)
          { position := (H + rb.nodes.length) % U, data := none } }
      T (H + 1) vals := by
  have hcpos : 0 < rb.nodes.length := h.cap_pos
  have hHT := h.hHT
  have hTHc := h.hTH
  have hidx : rb.head &&& rb.mask = H % rb.nodes.length := by
    obtain ⟨k, hk64, hck⟩ := (Nat.dvd_prime_pow Nat.prime_two).mp h.cap_dvd
    rw [h.head_eq, h.mask_eq, hck, and_two_pow_sub_one,
        Nat.mod_mod_of_dvd H (hck ▸ h.cap_dvd), ← hck]
  have hslot := h.pub H (Nat.le_refl H) hne
  have hdif : sub64 ((H + 1) % U) (rb.head + 1) = 0 := by
    rw [h.head_eq]
    apply (sub64_eq_zero_iff _ _).mpr
    rw [U_lit]
    omega
  have hX : (H % U + 1) % U = (H + 1) % U := by
    rw [U_lit]; omega
  have hY : (H % U + (rb.nodes.length - 1) + 1) % U =
      (H + rb.nodes.length) % U := by
    rw [U_lit] at *
    omega
  constructor
  · simp only [pollLoop, hd, hidx, hslot, hdif]
    rw [h.head_eq, h.mask_eq]
    simp [hX, hY]
  · refine ⟨?_, ?_, ?_, ?_, ?_, ?_, ?_, ?_, ?_, ?_, ?_⟩
    · simpa using h.cap_pos
    · simpa using h.cap_dvd
    · simpa using h.cap_le
    · simpa using h.mask_eq
    · exact h.disp
    · exact h.tail_eq
    · rfl
    · omega
    · simp only [List.length_set]
      omega
    · intro j hj1 hj2
      simp only [List.length_set]
      have hjHc : j ≠ H + rb.nodes.length := by omega
      have hne2 : H % rb.nodes.length ≠ j % rb.nodes.length := by
        intro he
        rw [← Nat.add_mod_right H rb.nodes.length] at he
        exact hjHc (mod_inj_interval hcpos
          (by omega : H + 1 ≤ j) (by omega)
          (by omega : H + 1 ≤ H + rb.nodes.length) (by omega) he.symm)
      rw [List.getElem?_set_ne hne2]
      exact h.pub j (by omega) hj2
    · intro j hj1 hj2
      simp only [List.length_set] at hj2 ⊢
      by_cases hjHc : j = H + rb.nodes.length
      · subst hjHc
        rw [Nat.add_mod_right, List.getElem?_set]
        simp [Nat.mod_lt _ hcpos]
      · have hne2 : H % rb.nodes.length ≠ j % rb.nodes.length := by
          intro he
          rw [← Nat.add_mod_right H rb.nodes.length] at he
          exact hjHc (mod_inj_interval hcpos
            (by omega : H + 1 ≤ j) (by omega)
            (by omega : H + 1 ≤ H + rb.nodes.length) (by omega) he.symm)
        rw [List.getElem?_set_ne hne2]
        exact h.free j hj1 (by omega)

theorem full_setup {α : Type} {rb : RingBuffer α} {T H : Nat}
    {vals : Nat → Option α} (h : Inv rb T H vals)
    (hfull : T - H = rb.nodes.length) (h2 : 2 ≤ rb.nodes.length) :
    rb.tail &&& rb.mask = H % rb.nodes.length ∧
    rb.nodes[H % rb.nodes.length]? =
      some { position := (H + 1) % U, data := vals H } ∧
    ¬ sub64 ((H + 1) % U) rb.tail = 0 := by
  have hcpos : 0 < rb.nodes.length := h.cap_pos
  have hHT := h.hHT
  have hc63 : rb.nodes.length ≤ 9223372036854775808 := by
    have := h.cap_le
    rwa [show (2 : Nat) ^ 63 = 9223372036854775808 by norm_num] at this
  have hT : T = H + rb.nodes.length := by omega
  refine ⟨?_, ?_, ?_⟩
  · obtain ⟨k, hk64, hck⟩ := (Nat.dvd_prime_pow Nat.prime_two).mp h.cap_dvd
    rw [h.tail_eq, h.mask_eq, hck, and_two_pow_sub_one,
        Nat.mod_mod_of_dvd T (hck ▸ h.cap_dvd), ← hck, hT, Nat.add_mod_right]
  · exact h.pub H (Nat.le_refl H) (by omega)
  · rw [h.tail_eq, hT, sub64_eq_zero_iff, U_lit]
    omega

theorem offer_full {α : Type} {rb : RingBuffer α} {T H : Nat}
    {vals : Nat → Option α} (h : Inv rb T H vals) (hd : rb.disposed = 0)
    (hfull : T - H = rb.nodes.length) (h2 : 2 ≤ rb.nodes.length)
    (item : α) (fuel : Nat) :
    putLoop item true rb rb.tail (fuel + 1) = (PutRes.notAccepted, rb) := by
  obtain ⟨hidx, hslot, hdiff⟩ := full_setup h hfull h2
  simp only [putLoop, hd, hidx, hslot]
  simp [hdiff]

theorem put_full_spin {α : Type} {rb : RingBuffer α} {T H : Nat}
    {vals : Nat → Option α} (h : Inv rb T H vals) (hd : rb.disposed = 0)
    (hfull : T - H = rb.nodes.length) (h2 : 2 ≤ rb.nodes.length)
    (item : α) : ∀ fuel,
    putLoop item false rb rb.tail fuel = (PutRes.outOfFuel, rb) := by
  obtain ⟨hidx, hslot, hdiff⟩ := full_setup h hfull h2
  intro fuel
  induction fuel with
  | zero => rfl
  | succ f ih =>
    simp only [putLoop, hd, hidx, hslot]
    simp [hdiff, ih]

theorem empty_setup {α : Type} {rb : RingBuffer α} {T H : Nat}
    {vals : Nat → Option α} (h : Inv rb T H vals) (hemp : T = H) :
    rb.head &&& rb.mask = H % rb.nodes.length ∧
    rb.nodes[H % rb.nodes.length]? =
      some { position := H % U, data := none } ∧
    ¬ sub64 (H % U) (rb.head + 1) = 0 := by
  have hcpos : 0 < rb.nodes.length := h.cap_pos
  refine ⟨?_, ?_, ?_⟩
  · obtain ⟨k, hk64, hck⟩ := (Nat.dvd_prime_pow Nat.prime_two).mp h.cap_dvd
    rw [h.head_eq, h.mask_eq, hck, and_two_pow_sub_one,
        Nat.mod_mod_of_dvd H (hck ▸ h.cap_dvd), ← hck]
  · exact h.free H (by omega) (by omega)
  · rw [h.head_eq, sub64_eq_zero_iff, U_lit]
    omega

theorem poll_empty_spin {α : Type} {rb : RingBuffer α} {T H : Nat}
    {vals : Nat → Option α} (h : Inv rb T H vals) (hd : rb.disposed = 0)
    (hemp : T = H) (timeout : Int) (elapsed : Nat → Bool) : ∀ fuel iter,
    (pollLoop timeout elapsed rb rb.head iter fuel).2 = rb ∧
    ((pollLoop timeout elapsed rb rb.head iter fuel).1 = PollRes.outOfFuel ∨
     (pollLoop timeout elapsed rb rb.head iter fuel).1 = PollRes.timeoutErr) := by
  obtain ⟨hidx, hslot, hdif⟩ := empty_setup h hemp
  intro fuel
  induction fuel with
  | zero => exact fun _ => ⟨rfl, Or.inl rfl⟩
  | succ f ih =>
    intro iter
    simp only [pollLoop, hd, hidx, hslot]
    by_cases ht : 0 < timeout ∧ elapsed iter = true
    · simp [hdif, ht]
    · simp [hdif, ht, ih (iter + 1)]

theorem putLoop_disposed {α : Type} {rb : RingBuffer α}
    (hd : rb.disposed = 1) (item : α) (off : Bool) (tl fuel : Nat) :
    putLoop item off rb tl (fuel + 1) = (PutRes.disposedErr, rb) := by
  simp [putLoop, hd]

theorem pollLoop_disposed {α : Type} {rb : RingBuffer α}
    (hd : rb.disposed = 1) (timeout : Int) (elapsed : Nat → Bool)
    (pos iter fuel : Nat) :
    pollLoop timeout elapsed rb pos iter (fuel + 1) =
      (PollRes.disposedErr, rb) := by
  simp [pollLoop, hd]

theorem dispose_inv {α : Type} {rb : RingBuffer α} {T H : Nat}
    {vals : Nat → Option α} (h : Inv rb T H vals) :
    Inv rb.Dispose T H vals := by
  rcases h.disp with hd | hd
  · have hrw : rb.Dispose = { rb with disposed := 1 } := by
      simp [RingBuffer.Dispose, hd]
    rw [hrw]
    exact ⟨h.cap_pos, h.cap_dvd, h.cap_le, h.mask_eq, Or.inr rfl,
      h.tail_eq, h.head_eq, h.hHT, h.hTH, h.pub, h.free⟩
  · have hrw : rb.Dispose = rb := by
      simp [RingBuffer.Dispose, hd]
    rw [hrw]
    exact h

theorem put_def {α : Type} (rb : RingBuffer α) (item : α) (off : Bool)
    (fuel : Nat) : rb.put item off fuel = putLoop item off rb rb.tail fuel :=
  rfl

theorem poll_def {α : Type} (rb : RingBuffer α) (timeout : Int)
    (elapsed : Nat → Bool) (fuel : Nat) :
    rb.Poll timeout elapsed fuel = pollLoop timeout elapsed rb rb.head 0 fuel :=
  rfl

theorem dispose_tail {α : Type} (rb : RingBuffer α) :
    rb.Dispose.tail = rb.tail := by
  unfold RingBuffer.Dispose
  split <;> rfl

theorem dispose_head {α : Type} (rb : RingBuffer α) :
    rb.Dispose.head = rb.head := by
  unfold RingBuffer.Dispose
  split <;> rfl

theorem dispose_mask {α : Type} (rb : RingBuffer α) :
    rb.Dispose.mask = rb.mask := by
  unfold RingBuffer.Dispose
  split <;> rfl

theorem dispose_nodes {α : Type} (rb : RingBuffer α) :
    rb.Dispose.nodes = rb.nodes := by
  unfold RingBuffer.Dispose
  split <;> rfl

theorem step_inv {α : Type} {rb rb' : RingBuffer α} {T H : Nat}
    {vals : Nat → Option α} (h : Inv rb T H vals)
    (h1 : rb.nodes.length ≠ 1) (hs : Step rb rb') :
    ∃ T' H' vals', Inv rb' T' H' vals' ∧
      rb'.nodes.length = rb.nodes.length := by
  have h2 : 2 ≤ rb.nodes.length := by
    have := h.cap_pos
    omega
  have hTHc := h.hTH
  cases hs with
  | put item off fuel =>
    rw [put_def]
    cases fuel with
    | zero => exact ⟨T, H, vals, h, rfl⟩
    | succ f =>
      rcases h.disp with hd | hd
      · rcases Nat.lt_or_ge (T - H) rb.nodes.length with hnf | hge
        · obtain ⟨hrun, hinv⟩ := put_step h hd hnf item off f
          rw [hrun]
          exact ⟨T + 1, H, _, hinv, by simp⟩
        · have hfull : T - H = rb.nodes.length := by omega
          cases off with
          | true =>
            rw [offer_full h hd hfull h2 item f]
            exact ⟨T, H, vals, h, rfl⟩
          | false =>
            rw [put_full_spin h hd hfull h2 item (f + 1)]
            exact ⟨T, H, vals, h, rfl⟩
      · rw [putLoop_disposed hd]
        exact ⟨T, H, vals, h, rfl⟩
  | poll timeout elapsed fuel =>
    rw [poll_def]
    cases fuel with
    | zero => exact ⟨T, H, vals, h, rfl⟩
    | succ f =>
      rcases h.disp with hd | hd
      · rcases Nat.lt_or_ge H T with hne | hge
        · obtain ⟨hrun, hinv⟩ := poll_step h hd hne timeout elapsed 0 f
          rw [hrun]
          exact ⟨T, H + 1, vals, hinv, by simp⟩
        · have hemp : T = H := by
            have := h.hHT
            omega
          rw [(poll_empty_spin h hd hemp timeout elapsed (f + 1) 0).1]
          exact ⟨T, H, vals, h, rfl⟩
      · rw [pollLoop_disposed hd]
        exact ⟨T, H, vals, h, rfl⟩
  | dispose =>
    exact ⟨T, H, vals, dispose_inv h, by rw [dispose_nodes]⟩

theorem reachable_inv {α : Type} {size : Nat} {rb : RingBuffer α} {k : Nat}
    (hk : k ≤ 63) (hk1 : 1 ≤ k) (hc : roundUp size = 2 ^ k)
    (hr : Reachable size rb) :
    ∃ T H vals, Inv rb T H vals ∧ rb.nodes.length = 2 ^ k := by
  induction hr with
  | refl =>
    exact ⟨0, 0, fun _ => none, inv_fresh α size k hk hc,
      by simp [newRingBuffer, initNodes_length, hc]⟩
  | tail hab hbc ih =>
    obtain ⟨T, H, vals, hinv, hlen⟩ := ih
    have h1 : (2 : Nat) ^ 1 ≤ 2 ^ k := Nat.pow_le_pow_right (by norm_num) hk1
    obtain ⟨T', H', vals', hinv', hlen'⟩ := step_inv hinv
      (by rw [hlen]; omega) hbc
    exact ⟨T', H', vals', hinv', by rw [hlen', hlen]⟩

theorem cap0_step {α : Type} {b b' : RingBuffer α}
    (h : b.tail = 0 ∧ b.head = 0 ∧ b.nodes = []) (hs : Step b b') :
    b'.tail = 0 ∧ b'.head = 0 ∧ b'.nodes = [] := by
  obtain ⟨h1, h2, h3⟩ := h
  cases hs with
  | put item off fuel =>
    rw [put_def]
    cases fuel with
    | zero => exact ⟨h1, h2, h3⟩
    | succ f =>
      by_cases hd : b.disposed = 1
      · rw [putLoop_disposed hd]
        exact ⟨h1, h2, h3⟩
      · have hrun : putLoop item off b b.tail (f + 1) = (PutRes.idxOOR, b) := by
          simp only [putLoop, h3]
          simp [hd]
        rw [hrun]
        exact ⟨h1, h2, h3⟩
  | poll timeout elapsed fuel =>
    rw [poll_def]
    cases fuel with
    | zero => exact ⟨h1, h2, h3⟩
    | succ f =>
      by_cases hd : b.disposed = 1
      · rw [pollLoop_disposed hd]
        exact ⟨h1, h2, h3⟩
      · have hrun : pollLoop timeout elapsed b b.head 0 (f + 1) =
            (PollRes.idxOOR, b) := by
          simp only [pollLoop, h3]
          simp [hd]
        rw [hrun]
        exact ⟨h1, h2, h3⟩
  | dispose =>
    rw [dispose_tail, dispose_head, dispose_nodes]
    exact ⟨h1, h2, h3⟩

theorem cap0_closure {α : Type} {size : Nat} (hc : roundUp size = 0)
    {rb : RingBuffer α} (hr : Reachable size rb) :
    rb.tail = 0 ∧ rb.head = 0 ∧ rb.nodes = [] := by
  induction hr with
  | refl => simp [newRingBuffer, hc, initNodes]
  | tail hab hbc ih => exact cap0_step ih hbc

theorem putSeq_ok {α : Type} (vs : List α) : ∀ {rb : RingBuffer α}
    {T H : Nat} {vals : Nat → Option α}, Inv rb T H vals →
    rb.disposed = 0 → T - H + vs.length ≤ rb.nodes.length →
    ∃ rb' vals', putSeq rb vs = (List.replicate vs.length PutRes.ok, rb') ∧
      Inv rb' (T + vs.length) H vals' ∧ rb'.disposed = 0 ∧
      (∀ i, i < vs.length → vals' (T + i) = vs[i]?) ∧
      (∀ j, j < T → vals' j = vals j) := by
  induction vs with
  | nil =>
    intro rb T H vals h hd _
    exact ⟨rb, vals, rfl, by simpa using h, hd, by intro i hi; simp at hi,
      fun j _ => rfl⟩
  | cons v vs ih =>
    intro rb T H vals h hd hle
    have hHT := h.hHT
    have hnf : T - H < rb.nodes.length := by
      simp only [List.length_cons] at hle
      omega
    obtain ⟨hrun, hinv1⟩ := put_step h hd hnf v false 0
    have hrun1 : rb.put v false 1 = (PutRes.ok, { rb with
        tail := (T + 1) % U,
        nodes := rb.nodes.set (T % rb.nodes.length)
          { position := (T + 1) % U, data := some v } }) := by
      rw [put_def]
      simpa using hrun
    have hd1 : ({ rb with
        tail := (T + 1) % U,
        nodes := rb.nodes.set (T % rb.nodes.length)
          { position := (T + 1) % U, data := some v } }).disposed = 0 := hd
    have hle1 : (T + 1) - H + vs.length ≤ ({ rb with
        tail := (T + 1) % U,
        nodes := rb.nodes.set (T % rb.nodes.length)
          { position := (T + 1) % U, data := some v } }).nodes.length := by
      simp only [List.length_set]
      simp only [List.length_cons] at hle
      omega
    obtain ⟨rb', vals', hseq, hinv', hd', hvals1, hvals2⟩ :=
      ih hinv1 hd1 hle1
    refine ⟨rb', vals', ?_, ?_, hd', ?_, ?_⟩
    · simp only [putSeq, hrun1, hseq, List.length_cons, List.replicate_succ]
    · have e : T + (v :: vs).length = T + 1 + vs.length := by
        simp only [List.length_cons]
        omega
      rw [e]
      exact hinv'
    · intro i hi
      cases i with
      | zero =>
        have h0 := hvals2 T (by omega)
        have e0 : T + 0 = T := by omega
        rw [e0, h0]
        simp
      | succ i' =>
        have hi' : i' < vs.length := by
          simp only [List.length_cons] at hi
          omega
        have e : T + (i' + 1) = T + 1 + i' := by omega
        rw [e, hvals1 i' hi']
        exact (List.getElem?_cons_succ).symm
    · intro j hj
      have := hvals2 j (by omega)
      rw [this]
      simp only [if_neg (by omega : ¬ j = T)]

theorem getSeq_ok {α : Type} (n : Nat) : ∀ {rb : RingBuffer α}
    {T H : Nat} {vals : Nat → Option α}, Inv rb T H vals →
    rb.disposed = 0 → H + n ≤ T →
    ∃ rb', getSeq rb n =
      ((List.range n).map (fun i => PollRes.ok (vals (H + i))), rb') ∧
      Inv rb' T (H + n) vals ∧ rb'.disposed = 0 := by
  induction n with
  | zero =>
    intro rb T H vals h hd _
    exact ⟨rb, rfl, by simpa using h, hd⟩
  | succ n ih =>
    intro rb T H vals h hd hle
    have hne : H < T := by omega
    obtain ⟨hrun, hinv1⟩ := poll_step h hd hne 0 (fun _ => false) 0 0
    have hrun1 : rb.Get 1 = (PollRes.ok (vals H), { rb with
        head := (H + 1) % U,
        nodes := rb.nodes.set (H % rb.nodes.length)
          { position := (H + rb.nodes.length) % U, data := none } }) := by
      show pollLoop 0 (fun _ => false) rb rb.head 0 1 = _
      simpa using hrun
    have hd1 : ({ rb with
        head := (H + 1) % U,
        nodes := rb.nodes.set (H % rb.nodes.length)
          { position := (H + rb.nodes.length) % U, data := none } }).disposed =
        0 := hd
    obtain ⟨rb', hseq, hinv', hd'⟩ := ih hinv1 hd1 (by omega)
    refine ⟨rb', ?_, ?_, hd'⟩
    · have hlist : (List.range (n + 1)).map
          (fun i => PollRes.ok (vals (H + i))) =
          PollRes.ok (vals H) :: (List.range n).map
            (fun i => PollRes.ok (vals (H + 1 + i))) := by
        rw [List.range_succ_eq_map, List.map_cons, List.map_map]
        congr 1
        apply List.map_congr_left
        intro i _
        show PollRes.ok (vals (H + Nat.succ i)) = PollRes.ok (vals (H + 1 + i))
        have e : H + Nat.succ i = H + 1 + i := by omega
        rw [e]
      rw [hlist]
      simp only [getSeq, hrun1, hseq]
    · have e : H + (n + 1) = H + 1 + n := by omega
      rw [e]
      exact hinv'

theorem map_get_range {α : Type} (vs : List α) :
    (List.range vs.length).map (fun i => PollRes.ok vs[i]?) =
    vs.map (fun v => PollRes.ok (some v)) := by
  induction vs with
  | nil => rfl
  | cons v vs ih =>
    have hlen : (v :: vs).length = vs.length + 1 := rfl
    rw [hlen, List.range_succ_eq_map, List.map_cons, List.map_map,
        List.map_cons]
    congr 1
    · simp
    · rw [← ih]
      apply List.map_congr_left
      intro i _
      show PollRes.ok (v :: vs)[Nat.succ i]? = PollRes.ok vs[i]?
      rw [List.getElem?_cons_succ]

theorem pollLoop_timeout_irrel {α : Type} (t : Int) (ht : ¬ 0 < t)
    (e e' : Nat → Bool) : ∀ (fuel : Nat) (rb : RingBuffer α)
    (pos iter iter' : Nat),
    pollLoop t e rb pos iter fuel = pollLoop 0 e' rb pos iter' fuel := by
  intro fuel
  induction fuel with
  | zero => intro rb pos iter iter'; rfl
  | succ f ih =>
    intro rb pos iter iter'
    by_cases hd : rb.disposed = 1
    · simp [pollLoop, hd]
    · cases hslot : rb.nodes[pos &&& rb.mask]? with
      | none => simp [pollLoop, hd, hslot]
      | some n =>
        by_cases hdif : sub64 n.position (pos + 1) = 0
        · by_cases hcas : rb.head = pos
          · simp [pollLoop, hd, hslot, hdif, hcas]
          · simp only [pollLoop, if_neg hd, hslot, if_pos hdif, if_neg hcas]
            rw [if_neg (by simp [ht]), if_neg (by simp)]
            exact ih rb pos (iter + 1) (iter' + 1)
        · simp only [pollLoop, if_neg hd, hslot, if_neg hdif,
            if_neg (Nat.not_lt_zero _)]
          rw [if_neg (by simp [ht]), if_neg (by simp)]
          exact ih rb rb.head (iter + 1) (iter' + 1)

theorem pollLoop_no_timeout {α : Type} (t : Int) (ht : ¬ 0 < t)
    (e : Nat → Bool) : ∀ (fuel : Nat) (rb : RingBuffer α) (pos iter : Nat),
    (pollLoop t e rb pos iter fuel).1 ≠ PollRes.timeoutErr := by
  intro fuel
  induction fuel with
  | zero => intro rb pos iter h; simp [pollLoop] at h
  | succ f ih =>
    intro rb pos iter
    by_cases hd : rb.disposed = 1
    · simp [pollLoop, hd]
    · cases hslot : rb.nodes[pos &&& rb.mask]? with
      | none => simp [pollLoop, hd, hslot]
      | some n =>
        by_cases hdif : sub64 n.position (pos + 1) = 0
        · by_cases hcas : rb.head = pos
          · simp [pollLoop, hd, hslot, hdif, hcas]
          · simp only [pollLoop, if_neg hd, hslot, if_pos hdif, if_neg hcas]
            rw [if_neg (by simp [ht])]
            exact ih rb pos (iter + 1)
        · simp only [pollLoop, if_neg hd, hslot, if_neg hdif,
            if_neg (Nat.not_lt_zero _)]
          rw [if_neg (by simp [ht])]
          exact ih rb rb.head (iter + 1)

theorem putLoop_no_panic {α : Type} (item : α) (off : Bool) :
    ∀ (fuel : Nat) (rb : RingBuffer α) (tl : Nat),
    (putLoop item off rb tl fuel).1 ≠ PutRes.panicked := by
  intro fuel
  induction fuel with
  | zero => intro rb tl h; simp [putLoop] at h
  | succ f ih =>
    intro rb tl
    by_cases hd : rb.disposed = 1
    · simp [putLoop, hd]
    · cases hslot : rb.nodes[tl &&& rb.mask]? with
      | none => simp [putLoop, hd, hslot]
      | some n =>
        by_cases hdiff : sub64 n.position tl = 0
        · by_cases hcas : rb.tail = tl
          · simp [putLoop, hd, hslot, hdiff, hcas]
          · simp only [putLoop, if_neg hd, hslot, if_pos hdiff, if_neg hcas]
            cases off with
            | true => simp
            | false =>
              simp only [Bool.false_eq_true, if_false]
              exact ih rb tl
        · simp only [putLoop, if_neg hd, hslot, if_neg hdiff,
            if_neg (Nat.not_lt_zero _)]
          cases off with
          | true => simp
          | false =>
            simp only [Bool.false_eq_true, if_false]
            exact ih rb rb.tail

theorem pollLoop_no_panic {α : Type} (t : Int) (e : Nat → Bool) :
    ∀ (fuel : Nat) (rb : RingBuffer α) (pos iter : Nat),
    (pollLoop t e rb pos iter fuel).1 ≠ PollRes.panicked := by
  intro fuel
  induction fuel with
  | zero => intro rb pos iter h; simp [pollLoop] at h
  | succ f ih =>
    intro rb pos iter
    by_cases hd : rb.disposed = 1
    · simp [pollLoop, hd]
    · cases hslot : rb.nodes[pos &&& rb.mask]? with
      | none => simp [pollLoop, hd, hslot]
      | some n =>
        by_cases hdif : sub64 n.position (pos + 1) = 0
        · by_cases hcas : rb.head = pos
          · simp [pollLoop, hd, hslot, hdif, hcas]
          · simp only [pollLoop, if_neg hd, hslot, if_pos hdif, if_neg hcas]
            by_cases ht : 0 < t ∧ e iter = true
            · simp [ht]
            · rw [if_neg ht]
              exact ih rb pos (iter + 1)
        · simp only [pollLoop, if_neg hd, hslot, if_neg hdif,
            if_neg (Nat.not_lt_zero _)]
          by_cases ht : 0 < t ∧ e iter = true
          · simp [ht]
          · rw [if_neg ht]
            exact ih rb rb.head (iter + 1)

theorem putLoop_len {α : Type} (item : α) (off : Bool) :
    ∀ (fuel : Nat) (rb : RingBuffer α) (tl : Nat),
    (putLoop item off rb tl fuel).2.nodes.length = rb.nodes.length := by
  intro fuel
  induction fuel with
  | zero => intro rb tl; rfl
  | succ f ih =>
    intro rb tl
    by_cases hd : rb.disposed = 1
    · simp [putLoop, hd]
    · cases hslot : rb.nodes[tl &&& rb.mask]? with
      | none => simp [putLoop, hd, hslot]
      | some n =>
        by_cases hdiff : sub64 n.position tl = 0
        · by_cases hcas : rb.tail = tl
          · simp [putLoop, hd, hslot, hdiff, hcas]
          · simp only [putLoop, if_neg hd, hslot, if_pos hdiff, if_neg hcas]
            cases off with
            | true => simp
            | false =>
              simp only [Bool.false_eq_true, if_false]
              exact ih rb tl
        · simp only [putLoop, if_neg hd, hslot, if_neg hdiff,
            if_neg (Nat.not_lt_zero _)]
          cases off with
          | true => simp
          | false =>
            simp only [Bool.false_eq_true, if_false]
            exact ih rb rb.tail

theorem pollLoop_len {α : Type} (t : Int) (e : Nat → Bool) :
    ∀ (fuel : Nat) (rb : RingBuffer α) (pos iter : Nat),
    (pollLoop t e rb pos iter fuel).2.nodes.length = rb.nodes.length := by
  intro fuel
  induction fuel with
  | zero => intro rb pos iter; rfl
  | succ f ih =>
    intro rb pos iter
    by_cases hd : rb.disposed = 1
    · simp [pollLoop, hd]
    · cases hslot : rb.nodes[pos &&& rb.mask]? with
      | none => simp [pollLoop, hd, hslot]
      | some n =>
        by_cases hdif : sub64 n.position (pos + 1) = 0
        · by_cases hcas : rb.head = pos
          · simp [pollLoop, hd, hslot, hdif, hcas]
          · simp only [pollLoop, if_neg hd, hslot, if_pos hdif, if_neg hcas]
            by_cases ht : 0 < t ∧ e iter = true
            · simp [ht]
            · rw [if_neg ht]
              exact ih rb pos (iter + 1)
        · simp only [pollLoop, if_neg hd, hslot, if_neg hdif,
            if_neg (Nat.not_lt_zero _)]
          by_cases ht : 0 < t ∧ e iter = true
          · simp [ht]
          · rw [if_neg ht]
            exact ih rb rb.head (iter + 1)

theorem step_len {α : Type} {a b : RingBuffer α} (h : Step a b) :
    b.nodes.length = a.nodes.length := by
  cases h with
  | put item off fuel => exact putLoop_len item off fuel a a.tail
  | poll timeout elapsed fuel => exact pollLoop_len timeout elapsed fuel a a.head 0
  | dispose => rw [dispose_nodes]

theorem reachableFrom_len {α : Type} {a b : RingBuffer α}
    (h : ReachableFrom a b) : b.nodes.length = a.nodes.length := by
  induction h with
  | refl => rfl
  | tail hab hbc ih => rw [step_len hbc, ih]

theorem len_eq {α : Type} {rb : RingBuffer α} {T H : Nat}
    {vals : Nat → Option α} (h : Inv rb T H vals) : rb.Len = T - H := by
  have hHT := h.hHT
  have hTHc := h.hTH
  have hc63 : rb.nodes.length ≤ 9223372036854775808 := by
    have := h.cap_le
    rwa [show (2 : Nat) ^ 63 = 9223372036854775808 by norm_num] at this
  show sub64 rb.tail rb.head = T - H
  rw [h.tail_eq, h.head_eq]
  unfold sub64
  rw [U_lit] at *
  omega

theorem step_disposed {α : Type} {a b : RingBuffer α} (ha : a.disposed = 1)
    (h : Step a b) : b.disposed = 1 := by
  cases h with
  | put item off fuel =>
    rw [put_def]
    cases fuel with
    | zero => exact ha
    | succ f => rw [putLoop_disposed ha]; exact ha
  | poll timeout elapsed fuel =>
    rw [poll_def]
    cases fuel with
    | zero => exact ha
    | succ f => rw [pollLoop_disposed ha]; exact ha
  | dispose =>
    unfold RingBuffer.Dispose
    rw [if_neg (by omega)]
    exact ha

theorem disposed_forever {α : Type} {a b : RingBuffer α} (ha : a.disposed = 1)
    (h : ReachableFrom a b) : b.disposed = 1 := by
  induction h with
  | refl => exact ha
  | tail hab hbc ih => exact step_disposed ih hbc


/-- C1 counterexample: capacity 4, put 10,20,30,40 (all succeed), then
Dispose; the very first subsequent Get already returns the Disposed
failure instead of the first pending value 10. -/
theorem c1_dispose_discards_pending_cex :
    (putSeq (newRingBuffer Nat 4) [10, 20, 30, 40]).1 =
      List.replicate 4 PutRes.ok ∧
    (((putSeq (newRingBuffer Nat 4) [10, 20, 30, 40]).2.Dispose).Get 1).1 =
      PollRes.disposedErr := by
  constructor
  · decide
  · decide

/-- C1 amended: after four successful puts of a,b,c,d into a capacity-4
buffer followed by Dispose, every subsequent Get returns the Disposed
failure immediately and leaves the state unchanged: disposal makes the
already-published pending values unreadable. -/
theorem c1_dispose_then_get_disposed (a b c d : Nat) :
    (putSeq (newRingBuffer Nat 4) [a, b, c, d]).1 =
      List.replicate 4 PutRes.ok ∧
    ∀ fuel, ((putSeq (newRingBuffer Nat 4) [a, b, c, d]).2.Dispose).Get
        (fuel + 1) =
      (PollRes.disposedErr,
        (putSeq (newRingBuffer Nat 4) [a, b, c, d]).2.Dispose) := by
  have hfresh := inv_fresh Nat 4 2 (by norm_num) (by decide)
  have hcap : (newRingBuffer Nat 4).nodes.length = 4 := by decide
  obtain ⟨rb1, vals', hput, hinv1, hd1, _, _⟩ :=
    putSeq_ok [a, b, c, d] hfresh rfl (by rw [hcap]; simp)
  have hd2 : rb1.Dispose.disposed = 1 := by
    unfold RingBuffer.Dispose
    rw [if_pos hd1]
  constructor
  · rw [hput]
    rfl
  · intro fuel
    rw [hput]
    exact pollLoop_disposed hd2 0 (fun _ => false) _ 0 fuel

/-- C2: the claim says a slot sequence strictly behind the expected value
makes put/offer/get/poll abort with a panic.  In the Go code `diff` is a
`uint64`, so the `diff < 0` case of the switch can never fire: the panic
branch is dead code.  No execution of the put or poll loop ever panics,
and on the `corrupted` state (slot sequence 0 behind tail 5) an Offer
returns not-accepted and a blocking Put or Get just spins, instead of
panicking. -/
theorem c2_sequence_behind_never_panics :
    (∀ (α : Type) (item : α) (off : Bool) (fuel : Nat) (rb : RingBuffer α)
      (tl : Nat), (putLoop item off rb tl fuel).1 ≠ PutRes.panicked) ∧
    (∀ (α : Type) (t : Int) (e : Nat → Bool) (fuel : Nat) (rb : RingBuffer α)
      (pos iter : Nat),
      (pollLoop t e rb pos iter fuel).1 ≠ PollRes.panicked) ∧
    corrupted.put 9 true 1 = (PutRes.notAccepted, corrupted) ∧
    corrupted.put 9 false 25 = (PutRes.outOfFuel, corrupted) ∧
    corrupted.Get 25 = (PollRes.outOfFuel, corrupted) := by
  refine ⟨?_, ?_, by decide, by decide, by decide⟩
  · intro α item off fuel rb tl
    exact putLoop_no_panic item off fuel rb tl
  · intro α t e fuel rb pos iter
    exact pollLoop_no_panic t e fuel rb pos iter

/-- C5: in every state with the disposed flag set, put, offer, get and
poll return the Disposed failure on their first loop iteration and leave
the state completely unchanged. -/
theorem c5_disposed_ops_fail (rb : RingBuffer Nat) (hd : rb.disposed = 1) :
    (∀ (item : Nat) (off : Bool) (fuel : Nat),
      rb.put item off (fuel + 1) = (PutRes.disposedErr, rb)) ∧
    (∀ (t : Int) (e : Nat → Bool) (fuel : Nat),
      rb.Poll t e (fuel + 1) = (PollRes.disposedErr, rb)) ∧
    (∀ fuel : Nat, rb.Get (fuel + 1) = (PollRes.disposedErr, rb)) := by
  refine ⟨?_, ?_, ?_⟩
  · intro item off fuel
    exact putLoop_disposed hd item off rb.tail fuel
  · intro t e fuel
    exact pollLoop_disposed hd t e rb.head 0 fuel
  · intro fuel
    exact pollLoop_disposed hd 0 (fun _ => false) rb.head 0 fuel

theorem c5_disposed_ops_fail_witness :
    (newRingBuffer Nat 4).Dispose.disposed = 1 ∧
    (newRingBuffer Nat 4).Dispose.Get (0 + 1) =
      (PollRes.disposedErr, (newRingBuffer Nat 4).Dispose) ∧
    (newRingBuffer Nat 4).Dispose.put 7 true (0 + 1) =
      (PutRes.disposedErr, (newRingBuffer Nat 4).Dispose) :=
  ⟨by decide,
   (c5_disposed_ops_fail _ (by decide)).2.2 0,
   (c5_disposed_ops_fail _ (by decide)).1 7 true 0⟩

/-- C10: size 0 gives an empty slot array (Cap 0), mask 2^64 - 1, and
every put, offer, get or poll call faults with an out-of-range index on
its first iteration (no result, no ordinary error) leaving the state
unchanged. -/
theorem c10_size_zero_faults :
    (newRingBuffer Nat 0).Cap = 0 ∧
    (newRingBuffer Nat 0).mask = 2 ^ 64 - 1 ∧
    (∀ (item : Nat) (off : Bool) (fuel : Nat),
      (newRingBuffer Nat 0).put item off (fuel + 1) =
        (PutRes.idxOOR, newRingBuffer Nat 0)) ∧
    (∀ (t : Int) (e : Nat → Bool) (fuel : Nat),
      (newRingBuffer Nat 0).Poll t e (fuel + 1) =
        (PollRes.idxOOR, newRingBuffer Nat 0)) ∧
    (∀ fuel : Nat, (newRingBuffer Nat 0).Get (fuel + 1) =
        (PollRes.idxOOR, newRingBuffer Nat 0)) := by
  have hnodes : (newRingBuffer Nat 0).nodes = [] := by decide
  have hd : (newRingBuffer Nat 0).disposed = 0 := rfl
  refine ⟨by decide, by decide, ?_, ?_, ?_⟩
  · intro item off fuel
    rw [put_def]
    simp [putLoop, hnodes, hd]
  · intro t e fuel
    rw [poll_def]
    simp [pollLoop, hnodes, hd]
  · intro fuel
    show pollLoop 0 (fun _ => false) (newRingBuffer Nat 0)
        (newRingBuffer Nat 0).head 0 (fuel + 1) =
      (PollRes.idxOOR, newRingBuffer Nat 0)
    simp [pollLoop, hnodes, hd]

/-- C3 counterexample: for requested size 2^63 + 1 the uint64 round-up
overflows to 0, so Cap() is 0 and is not the smallest power of two at or
above the request. -/
theorem c3_roundup_overflow_cex :
    0 < 2 ^ 63 + 1 ∧ (newRingBuffer Nat (2 ^ 63 + 1)).Cap = 0 ∧
    ¬ isSmallestPow2Geq ((newRingBuffer Nat (2 ^ 63 + 1)).Cap)
        (2 ^ 63 + 1) := by
  have hcap : (newRingBuffer Nat (2 ^ 63 + 1)).Cap = 0 := by decide
  refine ⟨by norm_num, hcap, ?_⟩
  rintro ⟨_, hle, _⟩
  rw [hcap] at hle
  exact absurd hle (by norm_num)

/-- C3 amended: for every requested size with 0 < size ≤ 2^63, Cap()
is the smallest power of two at or above the size (a power of two is
kept unchanged), and the capacity is the same in every reachable state
of the object. -/
theorem c3_cap_smallest_pow2 (size : Nat) (h1 : 0 < size)
    (h63 : size ≤ 2 ^ 63) :
    isSmallestPow2Geq ((newRingBuffer Nat size).Cap) size ∧
    ∀ rb : RingBuffer Nat, Reachable size rb →
      rb.Cap = (newRingBuffer Nat size).Cap := by
  have hcap : (newRingBuffer Nat size).Cap = roundUp size := by
    show (initNodes Nat (roundUp size)).length = roundUp size
    exact initNodes_length Nat (roundUp size)
  constructor
  · rw [hcap]
    exact roundUp_smallest size h1 h63
  · intro rb hr
    exact reachableFrom_len hr

theorem c3_cap_smallest_pow2_witness :
    0 < 5 ∧ 5 ≤ 2 ^ 63 ∧
    isSmallestPow2Geq ((newRingBuffer Nat 5).Cap) 5 :=
  ⟨by norm_num, by norm_num,
   (c3_cap_smallest_pow2 5 (by norm_num) (by norm_num)).1⟩

/-- C7: for every non-positive timeout, Poll behaves exactly like Get
(the timeout oracle is never consulted) and can never return the
Timeout failure. -/
theorem c7_get_poll_equiv (rb : RingBuffer Nat) (timeout : Int)
    (ht : timeout ≤ 0) (e : Nat → Bool) (fuel : Nat) :
    rb.Poll timeout e fuel = rb.Get fuel ∧
    (rb.Poll timeout e fuel).1 ≠ PollRes.timeoutErr := by
  have ht' : ¬ (0 : Int) < timeout := by omega
  constructor
  · show pollLoop timeout e rb rb.head 0 fuel =
      pollLoop 0 (fun _ => false) rb rb.head 0 fuel
    exact pollLoop_timeout_irrel timeout ht' e (fun _ => false) fuel rb
      rb.head 0 0
  · show (pollLoop timeout e rb rb.head 0 fuel).1 ≠ PollRes.timeoutErr
    exact pollLoop_no_timeout timeout ht' e fuel rb rb.head 0

theorem c7_get_poll_equiv_witness :
    ((-3 : Int) ≤ 0) ∧
    ((newRingBuffer Nat 4).Poll (-3) (fun _ => true) 2 =
      (newRingBuffer Nat 4).Get 2) ∧
    ((newRingBuffer Nat 4).Poll (-3) (fun _ => true) 2).1 ≠
      PollRes.timeoutErr :=
  ⟨by decide,
   (c7_get_poll_equiv (newRingBuffer Nat 4) (-3) (by decide)
     (fun _ => true) 2).1,
   (c7_get_poll_equiv (newRingBuffer Nat 4) (-3) (by decide)
     (fun _ => true) 2).2⟩

/-- C9: Dispose only raises the disposed flag, leaving tail, head, mask
and every slot untouched; it is idempotent; and once disposed, the
buffer reports IsDisposed in every subsequently reachable state. -/
theorem c9_dispose_frame (rb : RingBuffer Nat)
    (hd : rb.disposed = 0 ∨ rb.disposed = 1) :
    rb.Dispose.tail = rb.tail ∧ rb.Dispose.head = rb.head ∧
    rb.Dispose.mask = rb.mask ∧ rb.Dispose.nodes = rb.nodes ∧
    rb.Dispose.disposed = 1 ∧
    rb.Dispose.Dispose = rb.Dispose ∧
    ∀ rb' : RingBuffer Nat, ReachableFrom rb.Dispose rb' →
      rb'.IsDisposed = true := by
  have hd1 : rb.Dispose.disposed = 1 := by
    rcases hd with h0 | h0
    · unfold RingBuffer.Dispose
      rw [if_pos h0]
    · unfold RingBuffer.Dispose
      rw [if_neg (by omega)]
      exact h0
  refine ⟨dispose_tail rb, dispose_head rb, dispose_mask rb,
    dispose_nodes rb, hd1, ?_, ?_⟩
  · have he : rb.Dispose.Dispose =
        (if rb.Dispose.disposed = 0 then { rb.Dispose with disposed := 1 }
         else rb.Dispose) := rfl
    rw [he, hd1]
    simp
  · intro rb' hr
    have := disposed_forever hd1 hr
    simp [RingBuffer.IsDisposed, this]

theorem c9_dispose_frame_witness :
    ((newRingBuffer Nat 4).disposed = 0 ∨
      (newRingBuffer Nat 4).disposed = 1) ∧
    (newRingBuffer Nat 4).Dispose.tail = (newRingBuffer Nat 4).tail ∧
    (newRingBuffer Nat 4).Dispose.nodes = (newRingBuffer Nat 4).nodes ∧
    (newRingBuffer Nat 4).Dispose.Dispose =
      (newRingBuffer Nat 4).Dispose ∧
    (newRingBuffer Nat 4).Dispose.IsDisposed = true :=
  ⟨Or.inl rfl,
   (c9_dispose_frame _ (Or.inl rfl)).1,
   (c9_dispose_frame _ (Or.inl rfl)).2.2.2.1,
   (c9_dispose_frame _ (Or.inl rfl)).2.2.2.2.2.1,
   (c9_dispose_frame _ (Or.inl rfl)).2.2.2.2.2.2 _
     Relation.ReflTransGen.refl⟩

/-- C4 counterexample: a capacity-1 buffer (size 1) that is full
(Len = Cap = 1, not disposed) nevertheless ACCEPTS a further offer
(returns accepted = true) and modifies the state, because with one slot
the published marker tail+1 coincides with the free-for-next-lap marker
tail+capacity. -/
theorem c4_offer_full_cap1_cex :
    Reachable 1 ((newRingBuffer Nat 1).put 7 false 1).2 ∧
    ((newRingBuffer Nat 1).put 7 false 1).2.disposed = 0 ∧
    ((newRingBuffer Nat 1).put 7 false 1).2.Len =
      ((newRingBuffer Nat 1).put 7 false 1).2.Cap ∧
    (((newRingBuffer Nat 1).put 7 false 1).2.put 8 true 1).1 = PutRes.ok ∧
    (((newRingBuffer Nat 1).put 7 false 1).2.put 8 true 1).2 ≠
      ((newRingBuffer Nat 1).put 7 false 1).2 := by
  refine ⟨?_, by decide, by decide, by decide, by decide⟩
  exact Relation.ReflTransGen.single (Step.put _ 7 false 1)

/-- C4 amended: for every reachable, non-disposed, full buffer whose
capacity is at least 2, an Offer returns not-accepted with no error and
returns the state completely unchanged. -/
theorem c4_offer_full_rejects (size : Nat) (rb : RingBuffer Nat)
    (hcap2 : 2 ≤ (newRingBuffer Nat size).Cap) (hr : Reachable size rb)
    (hd : rb.disposed = 0) (hfull : rb.Len = rb.Cap) (item : Nat)
    (fuel : Nat) :
    rb.put item true (fuel + 1) = (PutRes.notAccepted, rb) := by
  have hcap : (newRingBuffer Nat size).Cap = roundUp size :=
    initNodes_length Nat (roundUp size)
  rcases roundUp_cases size with h0 | ⟨k, hk, hkc⟩
  · rw [hcap, h0] at hcap2
    omega
  · have hk1 : 1 ≤ k := by
      by_contra hk0
      have : k = 0 := by omega
      rw [hcap, hkc, this] at hcap2
      simp at hcap2
    obtain ⟨T, H, vals, hinv, hlen⟩ := reachable_inv hk hk1 hkc hr
    have hL := len_eq hinv
    have hfull2 : T - H = rb.nodes.length := by
      rw [hL] at hfull
      exact hfull
    have h2 : 2 ≤ rb.nodes.length := by
      rw [hlen]
      calc 2 = 2 ^ 1 := by norm_num
      _ ≤ 2 ^ k := Nat.pow_le_pow_right (by norm_num) hk1
    rw [put_def]
    exact offer_full hinv hd hfull2 h2 item fuel

theorem c4_offer_full_rejects_witness :
    2 ≤ (newRingBuffer Nat 2).Cap ∧
    Reachable 2 (((newRingBuffer Nat 2).put 5 false 1).2.put 6 false 1).2 ∧
    (((newRingBuffer Nat 2).put 5 false 1).2.put 6 false 1).2.disposed =
      0 ∧
    (((newRingBuffer Nat 2).put 5 false 1).2.put 6 false 1).2.Len =
      (((newRingBuffer Nat 2).put 5 false 1).2.put 6 false 1).2.Cap ∧
    (((newRingBuffer Nat 2).put 5 false 1).2.put 6 false 1).2.put 9 true
        (0 + 1) =
      (PutRes.notAccepted,
        (((newRingBuffer Nat 2).put 5 false 1).2.put 6 false 1).2) :=
  ⟨by decide,
   Relation.ReflTransGen.tail
     (Relation.ReflTransGen.single (Step.put _ 5 false 1))
     (Step.put _ 6 false 1),
   by decide, by decide,
   c4_offer_full_rejects 2 _ (by decide)
     (Relation.ReflTransGen.tail
       (Relation.ReflTransGen.single (Step.put _ 5 false 1))
       (Step.put _ 6 false 1))
     (by decide) (by decide) 9 0⟩

/-- C6: for every sequence of values vs with length at most the realized
capacity, putting them all into a fresh buffer succeeds call by call and
the same number of Gets returns exactly vs, in put order (FIFO). -/
theorem c6_fifo (size : Nat) (vs : List Nat)
    (hlen : vs.length ≤ (newRingBuffer Nat size).Cap) :
    (putSeq (newRingBuffer Nat size) vs).1 =
      List.replicate vs.length PutRes.ok ∧
    (getSeq (putSeq (newRingBuffer Nat size) vs).2 vs.length).1 =
      vs.map (fun v => PollRes.ok (some v)) := by
  have hcap : (newRingBuffer Nat size).Cap = roundUp size :=
    initNodes_length Nat (roundUp size)
  rcases roundUp_cases size with h0 | ⟨k, hk, hkc⟩
  · rw [hcap, h0] at hlen
    have hnil : vs = [] := List.eq_nil_of_length_eq_zero (by omega)
    subst hnil
    exact ⟨rfl, rfl⟩
  · have hfresh := inv_fresh Nat size k hk hkc
    have hlen2 : (newRingBuffer Nat size).nodes.length = 2 ^ k := by
      rw [show (newRingBuffer Nat size).nodes.length =
        (newRingBuffer Nat size).Cap from rfl, hcap, hkc]
    obtain ⟨rb1, vals', hput, hinv1, hd1, hvals, _⟩ :=
      putSeq_ok vs hfresh rfl
        (by rw [hlen2, ← hkc, ← hcap]; simpa using hlen)
    obtain ⟨rb2, hget, _, _⟩ := getSeq_ok vs.length hinv1 hd1 (by omega)
    have h2 : (putSeq (newRingBuffer Nat size) vs).2 = rb1 := by
      rw [hput]
    refine ⟨by rw [hput], ?_⟩
    rw [h2, hget]
    show (List.range vs.length).map (fun i => PollRes.ok (vals' (0 + i))) =
      vs.map (fun v => PollRes.ok (some v))
    rw [List.map_congr_left (fun i hi => by
      rw [hvals i (List.mem_range.mp hi)] :
        ∀ i ∈ List.range vs.length,
          PollRes.ok (vals' (0 + i)) = PollRes.ok vs[i]?)]
    exact map_get_range vs

theorem c6_fifo_witness :
    [1, 2, 3].length ≤ (newRingBuffer Nat 4).Cap ∧
    (putSeq (newRingBuffer Nat 4) [1, 2, 3]).1 =
      List.replicate 3 PutRes.ok ∧
    (getSeq (putSeq (newRingBuffer Nat 4) [1, 2, 3]).2 3).1 =
      [PollRes.ok (some 1), PollRes.ok (some 2), PollRes.ok (some 3)] :=
  ⟨by decide,
   (c6_fifo 4 [1, 2, 3] (by decide)).1,
   (c6_fifo 4 [1, 2, 3] (by decide)).2⟩

/-- C8 counterexample: with capacity 1 (size 1), two consecutive puts
both succeed from the fresh buffer, reaching a state with
Len = tail - head = 2 while Cap = 1, so the occupancy bound of the
claim is violated on a reachable state. -/
theorem c8_len_exceeds_cap_cex :
    Reachable 1 (((newRingBuffer Nat 1).put 7 false 1).2.put 8 false 1).2 ∧
    (((newRingBuffer Nat 1).put 7 false 1).2.put 8 false 1).2.Len = 2 ∧
    (((newRingBuffer Nat 1).put 7 false 1).2.put 8 false 1).2.Cap = 1 := by
  refine ⟨?_, by decide, by decide⟩
  exact Relation.ReflTransGen.tail
    (Relation.ReflTransGen.single (Step.put _ 7 false 1))
    (Step.put _ 8 false 1)

/-- C8 amended: for every buffer whose realized capacity is not 1, in
every reachable state the counters decompose as tail = T mod 2^64 and
head = H mod 2^64 for unwrapped operation counts H ≤ T with
Len() = T - H ≤ Cap(): the head never outruns the tail and the
occupancy never exceeds the capacity. -/
theorem c8_len_le_cap (size : Nat) (rb : RingBuffer Nat)
    (hcap1 : (newRingBuffer Nat size).Cap ≠ 1) (hr : Reachable size rb) :
    ∃ T H : Nat, rb.tail = T % U ∧ rb.head = H % U ∧ H ≤ T ∧
      rb.Len = T - H ∧ rb.Len ≤ rb.Cap := by
  have hcap : (newRingBuffer Nat size).Cap = roundUp size :=
    initNodes_length Nat (roundUp size)
  rcases roundUp_cases size with h0 | ⟨k, hk, hkc⟩
  · obtain ⟨h1, h2, h3⟩ := cap0_closure h0 hr
    have hL : rb.Len = 0 := by
      show sub64 rb.tail rb.head = 0
      rw [h1, h2]
      decide
    exact ⟨0, 0, by rw [h1]; rfl, by rw [h2]; rfl, Nat.le_refl 0,
      by rw [hL], by rw [hL]; exact Nat.zero_le _⟩
  · have hk1 : 1 ≤ k := by
      by_contra hk0
      have hke : k = 0 := by omega
      rw [hcap, hkc, hke] at hcap1
      simp at hcap1
    obtain ⟨T, H, vals, hinv, hlen⟩ := reachable_inv hk hk1 hkc hr
    have hL := len_eq hinv
    refine ⟨T, H, hinv.tail_eq, hinv.head_eq, hinv.hHT, hL, ?_⟩
    rw [hL]
    have := hinv.hTH
    exact this

theorem c8_len_le_cap_witness :
    (newRingBuffer Nat 4).Cap ≠ 1 ∧
    ∃ T H : Nat, (newRingBuffer Nat 4).tail = T % U ∧
      (newRingBuffer Nat 4).head = H % U ∧ H ≤ T ∧
      (newRingBuffer Nat 4).Len = T - H ∧
      (newRingBuffer Nat 4).Len ≤ (newRingBuffer Nat 4).Cap :=
  ⟨by decide,
   c8_len_le_cap 4 (newRingBuffer Nat 4) (by decide)
     Relation.ReflTransGen.refl⟩

end RingSpec
